import Mathlib

/-!
# Verification of the p4c Tofino resource-reporting subsystem

A shallow embedding, in Lean 4, of the data model and operations of the
resource usage aggregation and reporting subsystem of the p4c Tofino
backend (`backends/tofino/bf-p4c/logging/resources.h`), together with the
`MarshaledFrom` JSON round-trip (`backends/tofino/bf-p4c/parde/marshal.cpp`)
and the `P4::cstring` indexing interface (`lib/cstring.h`).

C++ `std::set<T>` values are modelled as strictly sorted lists over a
boolean strict order (the `operator<` the C++ type supplies), and
`std::set::insert` as an ordered insertion that is a no-op when an
equivalent element is already present.  C++ `std::string` values are
modelled as Lean `String`s (both compare lexicographically), except where
byte-level structure matters (`std::string::substr`, `P4::cstring`), where
lists of characters/bytes are used.
-/

namespace P4V

/-! ## Model of `std::set` ordered insertion -/

/-- The properties C++ requires of a `std::set` comparator (a strict weak
order) in the stronger, total form that all the comparators in
`resources.h` satisfy (they are lexicographic products of total orders):
irreflexivity, asymmetry, transitivity, and the condition that mutual
incomparability implies equality. -/
structure StdSetOrder {α : Type} (lt : α → α → Bool) : Prop where
  irr : ∀ a, lt a a = false
  asym : ∀ {a b}, lt a b = true → lt b a = true → False
  tr : ∀ {a b c}, lt a b = true → lt b c = true → lt a c = true
  conn : ∀ {a b}, lt a b = false → lt b a = false → a = b

/-- The boolean strict order of any linear order. -/
def linLtB {α : Type} [LinearOrder α] (a b : α) : Bool := decide (a < b)

theorem linLtB_spec {α : Type} [LinearOrder α] : StdSetOrder (linLtB (α := α)) where
  irr a := by simp [linLtB]
  asym h1 h2 := by
    simp only [linLtB, decide_eq_true_eq] at h1 h2
    exact absurd h2 (lt_asymm h1)
  tr h1 h2 := by
    simp only [linLtB, decide_eq_true_eq] at h1 h2 ⊢
    exact lt_trans h1 h2
  conn h1 h2 := by
    simp only [linLtB, decide_eq_false_iff_not, not_lt] at h1 h2
    exact le_antisymm h2 h1

/-- Lexicographic product of two boolean strict orders, as `std::tie(a, b) <
std::tie(a', b')` produces it. -/
def lexLt {α β : Type} [DecidableEq α] (la : α → α → Bool) (lb : β → β → Bool)
    (p q : α × β) : Bool :=
  la p.1 q.1 || (decide (p.1 = q.1) && lb p.2 q.2)

theorem lexLt_spec {α β : Type} [DecidableEq α] {la : α → α → Bool} {lb : β → β → Bool}
    (ha : StdSetOrder la) (hb : StdSetOrder lb) : StdSetOrder (lexLt la lb) where
  irr p := by simp [lexLt, ha.irr, hb.irr]
  asym := by
    intro p q h1 h2
    simp only [lexLt, Bool.or_eq_true, Bool.and_eq_true, decide_eq_true_eq] at h1 h2
    rcases h1 with h1 | ⟨he1, h1⟩
    · rcases h2 with h2 | ⟨he2, h2⟩
      · exact ha.asym h1 h2
      · rw [he2] at h1; rw [ha.irr] at h1; exact Bool.false_ne_true h1
    · rcases h2 with h2 | ⟨he2, h2⟩
      · rw [he1] at h2; rw [ha.irr] at h2; exact Bool.false_ne_true h2
      · exact hb.asym h1 h2
  tr := by
    intro p q r h1 h2
    simp only [lexLt, Bool.or_eq_true, Bool.and_eq_true, decide_eq_true_eq] at h1 h2 ⊢
    rcases h1 with h1 | ⟨he1, h1⟩
    · rcases h2 with h2 | ⟨he2, h2⟩
      · exact Or.inl (ha.tr h1 h2)
      · rw [he2] at h1; exact Or.inl h1
    · rcases h2 with h2 | ⟨he2, h2⟩
      · rw [he1]; exact Or.inl h2
      · exact Or.inr ⟨he1.trans he2, hb.tr h1 h2⟩
  conn := by
    intro p q h1 h2
    simp only [lexLt, Bool.or_eq_false_iff, Bool.and_eq_false_iff,
      decide_eq_false_iff_not] at h1 h2
    obtain ⟨ha1, hb1⟩ := h1
    obtain ⟨ha2, hb2⟩ := h2
    have he : p.1 = q.1 := ha.conn ha1 ha2
    have h2eq : p.2 = q.2 := by
      rcases hb1 with hb1 | hb1
      · exact absurd he hb1
      · rcases hb2 with hb2 | hb2
        · exact absurd he.symm hb2
        · exact hb.conn hb1 hb2
    exact Prod.ext he h2eq

/-- `std::set<T>::insert` on the sorted-list representation of the set:
walk the list; place `x` before the first strictly greater element; if an
element equivalent to `x` (neither less nor greater) is found, leave the
set unchanged. -/
def setInsert {α : Type} (lt : α → α → Bool) (x : α) : List α → List α
  | [] => [x]
  | y :: ys =>
    if lt x y then x :: y :: ys
    else if lt y x then y :: setInsert lt x ys
    else y :: ys

/-- Re-inserting an element is a no-op: only irreflexivity of the
comparator is needed. -/
theorem setInsert_idem {α : Type} {lt : α → α → Bool} (x : α)
    (hirr : lt x x = false) (s : List α) :
    setInsert lt x (setInsert lt x s) = setInsert lt x s := by
  induction s with
  | nil => simp [setInsert, hirr]
  | cons y ys ih =>
    by_cases hxy : lt x y = true
    · simp [setInsert, hxy, hirr]
    · by_cases hyx : lt y x = true
      · simp only [setInsert, hxy, hyx, Bool.not_eq_true, if_false, if_true, ih]
        simp [setInsert, hxy, hyx]
      · simp only [Bool.not_eq_true] at hxy hyx
        simp [setInsert, hxy, hyx]

/-- Every member of `setInsert lt x s` is `x` or a member of `s`. -/
theorem mem_of_mem_setInsert {α : Type} {lt : α → α → Bool} {x a : α} {s : List α}
    (h : a ∈ setInsert lt x s) : a = x ∨ a ∈ s := by
  induction s with
  | nil => simpa [setInsert] using h
  | cons y ys ih =>
    by_cases hxy : lt x y = true
    · have e : setInsert lt x (y :: ys) = x :: y :: ys := by simp [setInsert, hxy]
      rw [e] at h
      rcases List.mem_cons.mp h with h | h
      · exact Or.inl h
      · exact Or.inr h
    · by_cases hyx : lt y x = true
      · have e : setInsert lt x (y :: ys) = y :: setInsert lt x ys := by
          simp [setInsert, hxy, hyx]
        rw [e] at h
        rcases List.mem_cons.mp h with h | h
        · exact Or.inr (by simp [h])
        · rcases ih h with h | h
          · exact Or.inl h
          · exact Or.inr (by simp [h])
      · have e : setInsert lt x (y :: ys) = y :: ys := by simp [setInsert, hxy, hyx]
        rw [e] at h
        exact Or.inr h

/-- Inserting preserves strict sortedness. -/
theorem setInsert_pairwise {α : Type} {lt : α → α → Bool} (hlt : StdSetOrder lt)
    (x : α) {s : List α} (hs : List.Pairwise (fun a b => lt a b = true) s) :
    List.Pairwise (fun a b => lt a b = true) (setInsert lt x s) := by
  induction s with
  | nil => simp [setInsert]
  | cons y ys ih =>
    obtain ⟨hy, hys⟩ := List.pairwise_cons.mp hs
    by_cases hxy : lt x y = true
    · have e : setInsert lt x (y :: ys) = x :: y :: ys := by simp [setInsert, hxy]
      rw [e]
      refine List.pairwise_cons.mpr ⟨?_, hs⟩
      intro b hb
      rcases List.mem_cons.mp hb with rfl | hb
      · exact hxy
      · exact hlt.tr hxy (hy b hb)
    · by_cases hyx : lt y x = true
      · have e : setInsert lt x (y :: ys) = y :: setInsert lt x ys := by
          simp [setInsert, hxy, hyx]
        rw [e]
        refine List.pairwise_cons.mpr ⟨?_, ih hys⟩
        intro b hb
        rcases mem_of_mem_setInsert hb with rfl | hb
        · exact hyx
        · exact hy b hb
      · have e : setInsert lt x (y :: ys) = y :: ys := by simp [setInsert, hxy, hyx]
        rw [e]
        exact hs

/-- On a strictly sorted list, inserting `x` results in exactly one
occurrence of `x`. -/
theorem count_setInsert {α : Type} [DecidableEq α] {lt : α → α → Bool}
    (hlt : StdSetOrder lt) (x : α) {s : List α}
    (hs : List.Pairwise (fun a b => lt a b = true) s) :
    (setInsert lt x s).count x = 1 := by
  induction s with
  | nil => simp [setInsert]
  | cons y ys ih =>
    obtain ⟨hy, hys⟩ := List.pairwise_cons.mp hs
    by_cases hxy : lt x y = true
    · have e : setInsert lt x (y :: ys) = x :: y :: ys := by simp [setInsert, hxy]
      rw [e, List.count_cons_self]
      have hnot : x ∉ y :: ys := by
        intro hmem
        rcases List.mem_cons.mp hmem with rfl | hmem
        · rw [hlt.irr] at hxy; exact Bool.false_ne_true hxy
        · exact hlt.asym hxy (hy x hmem)
      rw [List.count_eq_zero.mpr hnot]
    · by_cases hyx : lt y x = true
      · have e : setInsert lt x (y :: ys) = y :: setInsert lt x ys := by
          simp [setInsert, hxy, hyx]
        have hne : y ≠ x := by
          rintro rfl
          rw [hlt.irr] at hyx; exact Bool.false_ne_true hyx
        rw [e, List.count_cons_of_ne (fun h => hne h.symm), ih hys]
      · have e : setInsert lt x (y :: ys) = y :: ys := by simp [setInsert, hxy, hyx]
        have hxeq : x = y := hlt.conn (by simpa using hxy) (by simpa using hyx)
        rw [e]
        subst hxeq
        rw [List.count_cons_self]
        have hnot : x ∉ ys := fun hmem => by
          have := hy x hmem
          rw [hlt.irr] at this
          exact Bool.false_ne_true this
        rw [List.count_eq_zero.mpr hnot]

/-- Lexicographic strict order on lists (the order `std::string` and
`std::vector` comparisons use): a shorter list is less than any proper
extension of it. -/
def listLtB {α : Type} [DecidableEq α] (ltc : α → α → Bool) : List α → List α → Bool
  | _, [] => false
  | [], _ :: _ => true
  | a :: as, b :: bs => ltc a b || (decide (a = b) && listLtB ltc as bs)

theorem listLtB_spec {α : Type} [DecidableEq α] {ltc : α → α → Bool}
    (hc : StdSetOrder ltc) : StdSetOrder (listLtB ltc) where
  irr l := by
    induction l with
    | nil => rfl
    | cons a as ih => simp [listLtB, hc.irr, ih]
  asym := by
    intro l m h1 h2
    induction l generalizing m with
    | nil =>
      cases m with
      | nil => simp [listLtB] at h1
      | cons b bs => simp [listLtB] at h2
    | cons a as ih =>
      cases m with
      | nil => simp [listLtB] at h1
      | cons b bs =>
        simp only [listLtB, Bool.or_eq_true, Bool.and_eq_true, decide_eq_true_eq] at h1 h2
        rcases h1 with h1 | ⟨he1, h1⟩
        · rcases h2 with h2 | ⟨he2, h2⟩
          · exact hc.asym h1 h2
          · rw [he2] at h1; rw [hc.irr] at h1; exact Bool.false_ne_true h1
        · rcases h2 with h2 | ⟨he2, h2⟩
          · rw [he1] at h2; rw [hc.irr] at h2; exact Bool.false_ne_true h2
          · exact ih h1 h2
  tr := by
    intro l m n h1 h2
    induction l generalizing m n with
    | nil =>
      cases m with
      | nil => simp [listLtB] at h1
      | cons b bs =>
        cases n with
        | nil => simp [listLtB] at h2
        | cons c cs => simp [listLtB]
    | cons a as ih =>
      cases m with
      | nil => simp [listLtB] at h1
      | cons b bs =>
        cases n with
        | nil => simp [listLtB] at h2
        | cons c cs =>
          simp only [listLtB, Bool.or_eq_true, Bool.and_eq_true, decide_eq_true_eq] at h1 h2 ⊢
          rcases h1 with h1 | ⟨he1, h1⟩
          · rcases h2 with h2 | ⟨he2, h2⟩
            · exact Or.inl (hc.tr h1 h2)
            · rw [he2] at h1; exact Or.inl h1
          · rcases h2 with h2 | ⟨he2, h2⟩
            · rw [he1]; exact Or.inl h2
            · exact Or.inr ⟨he1.trans he2, ih h1 h2⟩
  conn := by
    intro l m h1 h2
    induction l generalizing m with
    | nil =>
      cases m with
      | nil => rfl
      | cons b bs => simp [listLtB] at h1
    | cons a as ih =>
      cases m with
      | nil => simp [listLtB] at h2
      | cons b bs =>
        simp only [listLtB, Bool.or_eq_false_iff, Bool.and_eq_false_iff,
          decide_eq_false_iff_not] at h1 h2
        obtain ⟨hab, hres1⟩ := h1
        obtain ⟨hba, hres2⟩ := h2
        have he : a = b := hc.conn hab hba
        subst he
        have t1 : listLtB ltc as bs = false := by
          rcases hres1 with h | h
          · exact absurd rfl h
          · exact h
        have t2 : listLtB ltc bs as = false := by
          rcases hres2 with h | h
          · exact absurd rfl h
          · exact h
        rw [ih t1 t2]

/-- A boolean strict order pulled back along an injection is a
`StdSetOrder`. -/
theorem stdSetOrder_comap {α β : Type} {lt : β → β → Bool} (h : StdSetOrder lt)
    (f : α → β) (hf : Function.Injective f) :
    StdSetOrder (fun a b => lt (f a) (f b)) where
  irr a := h.irr (f a)
  asym h1 h2 := h.asym h1 h2
  tr h1 h2 := h.tr h1 h2
  conn h1 h2 := hf (h.conn h1 h2)

/-- `std::string::operator<`: lexicographic comparison of the character
sequences. -/
def strLtB (a b : String) : Bool := listLtB (linLtB (α := Char)) a.toList b.toList

theorem string_toList_injective : Function.Injective String.toList := by
  intro a b h
  cases a; cases b
  exact congrArg String.mk (by simpa [String.toList] using h)

theorem strLtB_spec : StdSetOrder strLtB :=
  stdSetOrder_comap (listLtB_spec linLtB_spec) String.toList string_toList_injective

/-! ## Model of `P4::cstring` (src/lib/cstring.h) -/

/-- C `strlen` on a byte buffer: the number of bytes before the first NUL
(zero) byte.  `cstring::size` is `str ? strlen(str) : 0`. -/
def strlen : List Nat → Nat
  | [] => 0
  | c :: cs => if c = 0 then 0 else strlen cs + 1

/-- The characters of the C string held in a buffer: the bytes before the
first NUL byte.  This is "the underlying string" a `cstring` refers to. -/
def strBytes : List Nat → List Nat
  | [] => []
  | c :: cs => if c = 0 then [] else c :: strBytes cs

/-- Model of `P4::cstring`: `str = none` is the null cstring
(`str == nullptr`); `str = some buf` is a cstring whose pointer refers to
a buffer holding the bytes `buf`.  The class invariant is that the buffer
is NUL-terminated (`0 ∈ buf`). -/
structure CString where
  str : Option (List Nat)

/-- `cstring::size`: `return str ? strlen(str) : 0;`. -/
def CString.size (s : CString) : Nat :=
  match s.str with
  | none => 0
  | some buf => strlen buf

/-- `cstring::get`: `return (index < size()) ? str[index] : 0;`.  The
dereference `str[index]` is modelled by `List.getD`; the `none` branch of
the dereference is unreachable because the null cstring has size 0. -/
def CString.get (s : CString) (index : Nat) : Nat :=
  if index < s.size then
    match s.str with
    | none => 0
    | some buf => buf.getD index 0
  else 0

/-- The underlying string a cstring refers to (empty for the null
cstring). -/
def CString.chars (s : CString) : List Nat :=
  match s.str with
  | none => []
  | some buf => strBytes buf

theorem strlen_le_length (buf : List Nat) : strlen buf ≤ buf.length := by
  induction buf with
  | nil => simp [strlen]
  | cons c cs ih =>
    by_cases hc : c = 0
    · simp [strlen, hc]
    · simp only [strlen, hc, if_false, List.length_cons]
      omega

theorem strBytes_getD (buf : List Nat) (i : Nat) (h : i < strlen buf) :
    (strBytes buf).getD i 0 = buf.getD i 0 := by
  induction buf generalizing i with
  | nil => simp [strBytes]
  | cons c cs ih =>
    by_cases hc : c = 0
    · simp [strlen, hc] at h
    · simp only [strlen, hc, if_false] at h
      cases i with
      | zero => simp [strBytes, hc]
      | succ j =>
        simp only [strBytes, hc, if_false, List.getD_cons_succ]
        exact ih j (by omega)

/-- **C10.** `cstring` indexing is total: for every cstring `s` (including
the null cstring) and every index `i`, `s.get i` returns the `i`-th
character of the underlying string when `i < s.size`, and returns the
character 0 when `i ≥ s.size`; the buffer dereference only happens at an
in-bounds index. -/
theorem cstring_get_total (s : CString) (i : Nat)
    (_hterm : ∀ buf, s.str = some buf → 0 ∈ buf) :
    (i < s.size → (∀ buf, s.str = some buf → i < buf.length)
      ∧ s.get i = (s.chars).getD i 0)
    ∧ (s.size ≤ i → s.get i = 0) := by
  constructor
  · intro hi
    constructor
    · intro buf hbuf
      have hsz : s.size = strlen buf := by simp [CString.size, hbuf]
      have := strlen_le_length buf
      omega
    · match hs : s.str with
      | none =>
        have hsz : s.size = 0 := by simp [CString.size, hs]
        omega
      | some buf =>
        have hsz : s.size = strlen buf := by simp [CString.size, hs]
        simp only [CString.get, if_pos hi, hs, CString.chars]
        exact (strBytes_getD buf i (hsz ▸ hi)).symm
  · intro hi
    simp [CString.get, Nat.not_lt.mpr hi]

/-- Witness for `cstring_get_total` at the buffer "hi\0" with indices 1
(in bounds) and 7 (out of bounds). -/
theorem cstring_get_total_witness :
    CString.get ⟨some [104, 105, 0]⟩ 1 = 105 ∧ CString.get ⟨some [104, 105, 0]⟩ 7 = 0 := by
  refine ⟨?_, ?_⟩
  · have h := (cstring_get_total ⟨some [104, 105, 0]⟩ 1
      (by intro buf hb; cases hb; decide)).1 (by decide)
    exact h.2.trans (by decide)
  · exact (cstring_get_total ⟨some [104, 105, 0]⟩ 7
      (by intro buf hb; cases hb; decide)).2 (by decide)

/-! ## Resource model (`BFN::Resources`, resources.h) -/

/-- Modelled from the spec: `IXBar::Use::Byte`
(bf-p4c/mau/tofino/input_xbar.h) is not in src; the spec's end-to-end
scenario describes a crossbar byte by its coordinate `{group, index}`,
compared lexicographically. -/
structure XbarByte where
  group : Int
  index : Int
deriving DecidableEq

def XbarByte.toPair (b : XbarByte) : Int × Int := (b.group, b.index)

def XbarByte.ltB (a b : XbarByte) : Bool := lexLt linLtB linLtB a.toPair b.toPair

theorem XbarByte.toPair_injective : Function.Injective XbarByte.toPair := by
  intro a b h
  cases a; cases b
  simp only [XbarByte.toPair, Prod.mk.injEq] at h
  simp [h.1, h.2]

theorem xbarByte_ltB_spec : StdSetOrder XbarByte.ltB :=
  stdSetOrder_comap (lexLt_spec linLtB_spec linLtB_spec) XbarByte.toPair
    XbarByte.toPair_injective

/-- `BFN::Resources::XbarByteResource` (resources.h): one crossbar byte
claimed by one consumer (`usedBy`) for one purpose (`usedFor`). -/
structure XbarByteResource where
  usedBy : String
  usedFor : String
  byte : XbarByte
deriving DecidableEq

def XbarByteResource.toTuple (r : XbarByteResource) : String × String × XbarByte :=
  (r.usedBy, r.usedFor, r.byte)

/-- `XbarByteResource::operator<`:
`std::tie(usedBy, usedFor, byte) < std::tie(other.usedBy, other.usedFor,
other.byte)`. -/
def XbarByteResource.ltB (a b : XbarByteResource) : Bool :=
  lexLt strLtB (lexLt strLtB XbarByte.ltB) a.toTuple b.toTuple

theorem xbarByteResource_toTuple_injective : Function.Injective XbarByteResource.toTuple := by
  intro a b h
  cases a; cases b
  simp only [XbarByteResource.toTuple, Prod.mk.injEq] at h
  simp [h.1, h.2.1, h.2.2]

theorem xbarByteResource_ltB_spec : StdSetOrder XbarByteResource.ltB :=
  stdSetOrder_comap (lexLt_spec strLtB_spec (lexLt_spec strLtB_spec xbarByte_ltB_spec))
    XbarByteResource.toTuple xbarByteResource_toTuple_injective

/-- `HashBitResource::UsageType` (resources.h): `enum class UsageType
{ WaySelect = 0, WayLineSelect, SelectionBit, DistBit, Gateway }`. -/
inductive UsageType
  | WaySelect
  | WayLineSelect
  | SelectionBit
  | DistBit
  | Gateway
deriving DecidableEq

/-- The underlying integer value of the enum, which enum comparison
uses. -/
def UsageType.val : UsageType → Nat
  | .WaySelect => 0
  | .WayLineSelect => 1
  | .SelectionBit => 2
  | .DistBit => 3
  | .Gateway => 4

def UsageType.ltB (a b : UsageType) : Bool := linLtB a.val b.val

theorem UsageType.val_injective : Function.Injective UsageType.val := by
  intro a b h
  cases a <;> cases b <;> simp_all [UsageType.val]

theorem usageType_ltB_spec : StdSetOrder UsageType.ltB :=
  stdSetOrder_comap linLtB_spec UsageType.val UsageType.val_injective

/-- `HashBitResource::Usage` (resources.h): one use of a hash bit,
described by role (`type`), `value`, and `fieldName`. -/
structure Usage where
  value : Int
  fieldName : String
  type : UsageType
deriving DecidableEq

def Usage.toTuple (u : Usage) : UsageType × Int × String := (u.type, u.value, u.fieldName)

/-- `Usage::operator<`: `std::tie(type, value, fieldName) <
std::tie(other.type, other.value, other.fieldName)`. -/
def Usage.ltB (a b : Usage) : Bool :=
  lexLt UsageType.ltB (lexLt linLtB strLtB) a.toTuple b.toTuple

theorem usage_toTuple_injective : Function.Injective Usage.toTuple := by
  intro a b h
  cases a; cases b
  simp only [Usage.toTuple, Prod.mk.injEq] at h
  simp [h.1, h.2.1, h.2.2]

theorem usage_ltB_spec : StdSetOrder Usage.ltB :=
  stdSetOrder_comap (lexLt_spec usageType_ltB_spec (lexLt_spec linLtB_spec strLtB_spec))
    Usage.toTuple usage_toTuple_injective

/-- `BFN::Resources::HashBitResource` (resources.h): all uses of one hash
bit for one hash function.  `usages` is a `std::set<Usage>`, modelled as
a strictly sorted list. -/
structure HashBitResource where
  usedBy : String
  usedFor : String
  usages : List Usage
deriving DecidableEq

/-- Modelled from the spec: the body of `HashBitResource::append`
(resources.cpp) is not in src.  Per spec §4.1 step 4 the collector
"locate[s] or create[s] the HashBitUsage record and add[s] a Usage entry
describing role/value/fieldName" and merges the record's consumer and
purpose labels; the usages set deduplicates and orders by
`Usage::operator<`. -/
def HashBitResource.append (r : HashBitResource) (ub uf : String)
    (type : UsageType) (value : Int) (fieldName : String) : HashBitResource :=
  { usedBy := ub, usedFor := uf,
    usages := setInsert Usage.ltB ⟨value, fieldName, type⟩ r.usages }

/-- `BFN::Resources::HashDistResource` (resources.h): the consumers and
purposes of one 48-bit hash-distribution unit, as two independent
`std::set<std::string>` (modelled as strictly sorted lists). -/
structure HashDistResource where
  usedBy : List String
  usedFor : List String
deriving DecidableEq

/-- Modelled from the spec: the body of `HashDistResource::append`
(resources.cpp) is not in src.  Per spec §4.1 step 5 the collector
"union[s] the consumer label into the corresponding usedBy set and the
purpose label into the corresponding usedFor set" — no pairing between a
consumer and a purpose is stored. -/
def HashDistResource.append (r : HashDistResource) (ub uf : String) : HashDistResource :=
  { usedBy := setInsert strLtB ub r.usedBy, usedFor := setInsert strLtB uf r.usedFor }

/-- `BFN::Resources::ActionBusByteResource` (resources.h): the consumers
of one action-bus byte (`std::set<std::string>`). -/
structure ActionBusByteResource where
  usedBy : List String
deriving DecidableEq

/-- Modelled from the spec: the body of `ActionBusByteResource::append`
(resources.cpp) is not in src.  Per spec §4.1 step 6, "for every claimed
byte, add the consumer label to that byte's set". -/
def ActionBusByteResource.append (r : ActionBusByteResource) (ub : String) :
    ActionBusByteResource :=
  { usedBy := setInsert strLtB ub r.usedBy }

/-- Modelled from the spec: `gress_t` (ir/gress.h) is not in src; the
glossary describes the packet-processing direction. -/
inductive Gress
  | INGRESS
  | EGRESS
  | GHOST
deriving DecidableEq

/-- `BFN::Resources::IMemColorResource` (resources.h): one
instruction-memory color slot for one direction; `usages` maps a
consumer label to the set of action names using the color. -/
structure IMemColorResource where
  color : Nat
  gress : Gress
  usages : List (String × List String)
deriving DecidableEq

/-- `BFN::Resources::MemoriesResource` (resources.h): the `table` pointer
and the `TableResourceAlloc *use` handle are opaque to this subsystem and
are modelled by numeric identifiers. -/
structure MemoriesResource where
  table : Nat
  tableName : String
  gatewayName : String
  use : Nat
deriving DecidableEq

/-- `ordered_map` lookup on the association-list model. -/
def lookupA {κ ν : Type} [DecidableEq κ] (m : List (κ × ν)) (k : κ) : Option ν :=
  match m with
  | [] => none
  | (k', v) :: rest => if k = k' then some v else lookupA rest k

/-- `ordered_map::operator[]` followed by a mutation: update the value at
`k` in an insertion-ordered association list; if `k` is absent, an entry
is first created at the end from the default-constructed value `d`. -/
def updateAssoc {κ ν : Type} [DecidableEq κ] (m : List (κ × ν)) (k : κ) (d : ν)
    (f : ν → ν) : List (κ × ν) :=
  match m with
  | [] => [(k, f d)]
  | (k', v) :: rest => if k = k' then (k', f v) :: rest else (k', v) :: updateAssoc rest k d f

theorem lookupA_updateAssoc {κ ν : Type} [DecidableEq κ] (m : List (κ × ν)) (k : κ)
    (d : ν) (f : ν → ν) :
    lookupA (updateAssoc m k d f) k = some (f ((lookupA m k).getD d)) := by
  induction m with
  | nil => simp [lookupA, updateAssoc]
  | cons p rest ih =>
    obtain ⟨k', v⟩ := p
    by_cases hk : k = k'
    · simp [lookupA, updateAssoc, hk]
    · simp [lookupA, updateAssoc, hk, ih]

theorem lookupA_updateAssoc_ne {κ ν : Type} [DecidableEq κ] (m : List (κ × ν))
    {k k2 : κ} (d : ν) (f : ν → ν) (h : k2 ≠ k) :
    lookupA (updateAssoc m k d f) k2 = lookupA m k2 := by
  induction m with
  | nil => simp [lookupA, updateAssoc, h]
  | cons p rest ih =>
    obtain ⟨k', v⟩ := p
    by_cases hk : k = k'
    · subst hk
      simp [lookupA, updateAssoc, h]
    · by_cases hk2 : k2 = k'
      · simp [lookupA, updateAssoc, hk, hk2]
      · simp [lookupA, updateAssoc, hk, hk2, ih]

theorem updateAssoc_updateAssoc {κ ν : Type} [DecidableEq κ] (m : List (κ × ν)) (k : κ)
    (d : ν) (f g : ν → ν) :
    updateAssoc (updateAssoc m k d f) k d g = updateAssoc m k d (fun v => g (f v)) := by
  induction m with
  | nil => simp [updateAssoc]
  | cons p rest ih =>
    obtain ⟨k', v⟩ := p
    by_cases hk : k = k'
    · simp [updateAssoc, hk]
    · simp [updateAssoc, hk, ih]

/-- `BFN::Resources::StageResources` (resources.h): the per-stage
aggregate.  Each C++ `ordered_map` (an insertion-ordered map) is
modelled as an association list, each `std::set` as a strictly sorted
list, and the `std::vector` of memories as a list. -/
structure StageResources where
  logicalIds : List (Int × String)
  xbarBytes : List (Int × List XbarByteResource)
  hashBits : List ((Int × Int) × HashBitResource)
  hashDist : List ((Int × Int) × HashDistResource)
  actionBusBytes : List (Int × ActionBusByteResource)
  imemColor : List (Int × List IMemColorResource)
  memories : List MemoriesResource
deriving DecidableEq

/-- A default-constructed (empty) `StageResources`. -/
def emptyStage : StageResources := ⟨[], [], [], [], [], [], []⟩

/-- Well-formedness of a `std::set` value in the sorted-list model:
strictly sorted by the element comparator. -/
def IsStdSet {α : Type} (lt : α → α → Bool) (s : List α) : Prop :=
  List.Pairwise (fun a b => lt a b = true) s

theorem self_mem_setInsert {α : Type} {lt : α → α → Bool} (hlt : StdSetOrder lt)
    (x : α) (s : List α) : x ∈ setInsert lt x s := by
  induction s with
  | nil => simp [setInsert]
  | cons y ys ih =>
    by_cases hxy : lt x y = true
    · have e : setInsert lt x (y :: ys) = x :: y :: ys := by simp [setInsert, hxy]
      rw [e]; simp
    · by_cases hyx : lt y x = true
      · have e : setInsert lt x (y :: ys) = y :: setInsert lt x ys := by
          simp [setInsert, hxy, hyx]
        rw [e]
        exact List.mem_cons_of_mem y ih
      · have e : setInsert lt x (y :: ys) = y :: ys := by simp [setInsert, hxy, hyx]
        have hxeq : x = y := hlt.conn (by simpa using hxy) (by simpa using hyx)
        rw [e, hxeq]
        simp

theorem mem_setInsert_of_mem {α : Type} {lt : α → α → Bool} {a : α} (x : α)
    {s : List α} (h : a ∈ s) : a ∈ setInsert lt x s := by
  induction s with
  | nil => cases h
  | cons y ys ih =>
    by_cases hxy : lt x y = true
    · have e : setInsert lt x (y :: ys) = x :: y :: ys := by simp [setInsert, hxy]
      rw [e]
      exact List.mem_cons_of_mem x h
    · by_cases hyx : lt y x = true
      · have e : setInsert lt x (y :: ys) = y :: setInsert lt x ys := by
          simp [setInsert, hxy, hyx]
        rw [e]
        rcases List.mem_cons.mp h with rfl | h
        · simp
        · exact List.mem_cons_of_mem y (ih h)
      · have e : setInsert lt x (y :: ys) = y :: ys := by simp [setInsert, hxy, hyx]
        rw [e]; exact h

theorem mem_setInsert_iff {α : Type} {lt : α → α → Bool} (hlt : StdSetOrder lt)
    (a x : α) (s : List α) : a ∈ setInsert lt x s ↔ a = x ∨ a ∈ s := by
  constructor
  · exact mem_of_mem_setInsert
  · rintro (rfl | h)
    · exact self_mem_setInsert hlt a s
    · exact mem_setInsert_of_mem x h

/-- Two strictly sorted lists with the same members are equal. -/
theorem sorted_ext {α : Type} {lt : α → α → Bool} (hlt : StdSetOrder lt) :
    ∀ {l1 l2 : List α}, IsStdSet lt l1 → IsStdSet lt l2 →
      (∀ a, a ∈ l1 ↔ a ∈ l2) → l1 = l2 := by
  intro l1
  induction l1 with
  | nil =>
    intro l2 _ _ hm
    cases l2 with
    | nil => rfl
    | cons b bs => exact absurd ((hm b).mpr (by simp)) (by simp)
  | cons a as ih =>
    intro l2 h1 h2 hm
    cases l2 with
    | nil => exact absurd ((hm a).mp (by simp)) (by simp)
    | cons b bs =>
      obtain ⟨ha, has⟩ := List.pairwise_cons.mp h1
      obtain ⟨hb, hbs⟩ := List.pairwise_cons.mp h2
      have hab : a = b := by
        rcases List.mem_cons.mp ((hm a).mp (by simp)) with h | h
        · exact h
        · rcases List.mem_cons.mp ((hm b).mpr (by simp)) with h2' | h2'
          · exact h2'.symm
          · exact absurd (ha b h2') (fun hf => hlt.asym hf (hb a h))
      subst hab
      have htails : ∀ x, x ∈ as ↔ x ∈ bs := by
        intro x
        constructor
        · intro hx
          rcases List.mem_cons.mp ((hm x).mp (List.mem_cons_of_mem a hx)) with rfl | hx2
          · have := ha x hx
            rw [hlt.irr] at this
            exact absurd this Bool.false_ne_true
          · exact hx2
        · intro hx
          rcases List.mem_cons.mp ((hm x).mpr (List.mem_cons_of_mem a hx)) with rfl | hx2
          · have := hb x hx
            rw [hlt.irr] at this
            exact absurd this Bool.false_ne_true
          · exact hx2
      rw [ih has hbs htails]

/-- Insertions into a set commute. -/
theorem setInsert_comm {α : Type} {lt : α → α → Bool} (hlt : StdSetOrder lt)
    (x y : α) {s : List α} (hs : IsStdSet lt s) :
    setInsert lt x (setInsert lt y s) = setInsert lt y (setInsert lt x s) := by
  refine sorted_ext hlt
    (setInsert_pairwise hlt x (setInsert_pairwise hlt y hs))
    (setInsert_pairwise hlt y (setInsert_pairwise hlt x hs)) ?_
  intro a
  rw [mem_setInsert_iff hlt, mem_setInsert_iff hlt, mem_setInsert_iff hlt,
    mem_setInsert_iff hlt]
  tauto

/-- Modelled from the spec: the body of
`ResourcesLogging::collectXbarBytesUsage` (resources.cpp) is not in src.
Per spec §4.1 step 3, each claimed byte is inserted into the stage's
crossbar usage (`xbarBytes`, keyed by the byte's crossbar index) "using
set semantics (duplicate triples collapse silently)", deduplicated by
`XbarByteResource::operator<`. -/
def StageResources.addXbarByte (sr : StageResources) (k : Int) (x : XbarByteResource) :
    StageResources :=
  { sr with xbarBytes := updateAssoc sr.xbarBytes k [] (setInsert XbarByteResource.ltB x) }

/-- Modelled from the spec: the hash-bit part of
`ResourcesLogging::collectTableUsage` (resources.cpp) is not in src.  Per
spec §4.1 step 4, "for every (bit, function) pair consumed, locate or
create the HashBitUsage record and add a Usage entry describing
role/value/fieldName". -/
def StageResources.addHashBit (sr : StageResources) (k : Int × Int) (ub uf : String)
    (type : UsageType) (value : Int) (fieldName : String) : StageResources :=
  { sr with hashBits :=
      updateAssoc sr.hashBits k ⟨"", "", []⟩ (fun r => r.append ub uf type value fieldName) }

/-- Modelled from the spec: the hash-distribution part of
`ResourcesLogging::collectHashDistUsage` (resources.cpp) is not in src.
Per spec §4.1 step 5, "for every (hashId, unitId) consumed, union the
consumer label into the corresponding usedBy set and the purpose label
into the corresponding usedFor set". -/
def StageResources.addHashDist (sr : StageResources) (k : Int × Int) (ub uf : String) :
    StageResources :=
  { sr with hashDist := updateAssoc sr.hashDist k ⟨[], []⟩ (fun r => r.append ub uf) }

/-- **C2.** Crossbar usage insertion is idempotent: for every stage
aggregate whose crossbar sets are well-formed, inserting the same
(consumer, purpose, byte) triple twice yields exactly one stored
`XbarByteResource` record for it, and the second insertion is a no-op
rather than an error. -/
theorem xbar_insert_idempotent (sr : StageResources) (k : Int) (x : XbarByteResource)
    (hs : ∀ s, lookupA sr.xbarBytes k = some s → IsStdSet XbarByteResource.ltB s) :
    (sr.addXbarByte k x).addXbarByte k x = sr.addXbarByte k x
    ∧ ∀ s, lookupA ((sr.addXbarByte k x).addXbarByte k x).xbarBytes k = some s →
        s.count x = 1 := by
  have hirr := xbarByteResource_ltB_spec.irr x
  have hold : IsStdSet XbarByteResource.ltB ((lookupA sr.xbarBytes k).getD []) := by
    cases hl : lookupA sr.xbarBytes k with
    | none => simp [IsStdSet]
    | some s => simpa using hs s hl
  constructor
  · have hidem : (fun v => setInsert XbarByteResource.ltB x
        (setInsert XbarByteResource.ltB x v)) = setInsert XbarByteResource.ltB x :=
      funext (fun v => setInsert_idem x hirr v)
    simp [StageResources.addXbarByte, updateAssoc_updateAssoc, hidem]
  · intro s h
    simp only [StageResources.addXbarByte, updateAssoc_updateAssoc] at h
    rw [lookupA_updateAssoc] at h
    have hse : s = setInsert XbarByteResource.ltB x
        (setInsert XbarByteResource.ltB x ((lookupA sr.xbarBytes k).getD [])) := by
      injection h.symm
    rw [hse, setInsert_idem x hirr]
    exact count_setInsert xbarByteResource_ltB_spec x hold

/-- Witness for `xbar_insert_idempotent` at the empty stage aggregate and
the triple from the spec's end-to-end scenario. -/
theorem xbar_insert_idempotent_witness :
    ((emptyStage.addXbarByte 0 ⟨"T1", "exact-match-key", ⟨2, 1⟩⟩).addXbarByte 0
        ⟨"T1", "exact-match-key", ⟨2, 1⟩⟩
      = emptyStage.addXbarByte 0 ⟨"T1", "exact-match-key", ⟨2, 1⟩⟩)
    ∧ List.count (⟨"T1", "exact-match-key", ⟨2, 1⟩⟩ : XbarByteResource)
        [⟨"T1", "exact-match-key", ⟨2, 1⟩⟩] = 1 := by
  have h := xbar_insert_idempotent emptyStage 0 ⟨"T1", "exact-match-key", ⟨2, 1⟩⟩
    (by intro s hl; simp [emptyStage, lookupA] at hl)
  exact ⟨h.1, h.2 [⟨"T1", "exact-match-key", ⟨2, 1⟩⟩] (by decide)⟩

/-- **C3.** Hash-bit role accumulation: using hash bit key (5, 2) once as
WaySelect(value 0, field "k1") and separately as SelectionBit(value 1,
field "k2") leaves exactly two Usage entries, with (WaySelect, 0, "k1")
ordered before (SelectionBit, 1, "k2"); in general, appends keep the
usages set strictly sorted by (role, value, fieldName) — so each distinct
combination is a separate member — and the appended combination is a
member. -/
theorem hashbit_role_accumulation (ub1 uf1 ub2 uf2 : String) :
    ((lookupA (((emptyStage.addHashBit (5, 2) ub1 uf1 .WaySelect 0 "k1").addHashBit
        (5, 2) ub2 uf2 .SelectionBit 1 "k2").hashBits) (5, 2)).map HashBitResource.usages
      = some [⟨0, "k1", .WaySelect⟩, ⟨1, "k2", .SelectionBit⟩])
    ∧ (∀ (r : HashBitResource) (ub uf : String) (t : UsageType) (v : Int) (f : String),
        IsStdSet Usage.ltB r.usages →
          IsStdSet Usage.ltB (r.append ub uf t v f).usages
          ∧ (⟨v, f, t⟩ : Usage) ∈ (r.append ub uf t v f).usages) := by
  constructor
  · simp only [StageResources.addHashBit, emptyStage, updateAssoc, lookupA,
      HashBitResource.append, if_pos rfl]
    rfl
  · intro r ub uf t v f hr
    exact ⟨setInsert_pairwise usage_ltB_spec _ hr,
      self_mem_setInsert usage_ltB_spec _ _⟩

/-- The fatal diagnostic for a duplicate logical id, naming the offending
table and stage. -/
def dupLogicalIdMsg (stage id : Int) (prevName newName : String) : String :=
  "duplicate logical id " ++ toString id ++ " in stage " ++ toString stage
    ++ ": claimed by " ++ prevName ++ " and " ++ newName

/-- `lookupA` misses exactly the keys outside the map. -/
theorem lookupA_eq_none_iff {κ ν : Type} [DecidableEq κ] (m : List (κ × ν)) (k : κ) :
    lookupA m k = none ↔ k ∉ m.map Prod.fst := by
  induction m with
  | nil => simp [lookupA]
  | cons p rest ih =>
    obtain ⟨k', v⟩ := p
    by_cases hk : k = k'
    · simp [lookupA, hk]
    · simp [lookupA, hk, ih]

/-- Injectivity of the logical-id index in the sense of spec §3: each
logical id is claimed by at most one table (the association list has no
duplicate keys). -/
abbrev InjectiveIds (m : List (Int × String)) : Prop := (m.map Prod.fst).Nodup

/-- Modelled from the spec: the logical-id part of
`ResourcesLogging::collectTableUsage` (resources.cpp) is not in src.  Per
spec §4.1 step 2, "Insert (logicalId → tableName) into that stage's
index.  Fails fatally if a different table already claims the same
logical id in that stage", with a diagnostic naming the offending table
and stage (§7). -/
def StageResources.addLogicalId (sr : StageResources) (stage lid : Int) (name : String) :
    Except String StageResources :=
  match lookupA sr.logicalIds lid with
  | some prev =>
    if prev = name then .ok sr
    else .error (dupLogicalIdMsg stage lid prev name)
  | none => .ok { sr with logicalIds := sr.logicalIds ++ [(lid, name)] }

/-- **C4.** Duplicate-logical-id is fatal: inserting (logicalId →
tableName) into a stage's logical-id index fails with the diagnostic
naming the offending table and stage whenever a different table already
claims that id, and every successful insertion preserves the index's
injectivity, so the map is injective in every completed report. -/
theorem duplicate_logical_id_fatal (sr : StageResources) (stage lid : Int) (name : String) :
    (∀ prev, lookupA sr.logicalIds lid = some prev → prev ≠ name →
      sr.addLogicalId stage lid name = .error (dupLogicalIdMsg stage lid prev name))
    ∧ (∀ sr2, InjectiveIds sr.logicalIds → sr.addLogicalId stage lid name = .ok sr2 →
      InjectiveIds sr2.logicalIds) := by
  constructor
  · intro prev hl hne
    simp [StageResources.addLogicalId, hl, hne]
  · intro sr2 hinj hok
    cases hl : lookupA sr.logicalIds lid with
    | some prev =>
      by_cases hne : prev = name
      · simp [StageResources.addLogicalId, hl, hne] at hok
        rw [← hok]
        exact hinj
      · simp [StageResources.addLogicalId, hl, hne] at hok
    | none =>
      simp only [StageResources.addLogicalId, hl, Except.ok.injEq] at hok
      rw [← hok]
      show ((sr.logicalIds ++ [(lid, name)]).map Prod.fst).Nodup
      rw [List.map_append]
      simp only [List.map_cons, List.map_nil]
      rw [List.nodup_append]
      refine ⟨hinj, List.nodup_singleton _, ?_⟩
      intro a ha hb
      simp only [List.mem_singleton] at hb
      rw [hb] at ha
      exact (lookupA_eq_none_iff sr.logicalIds lid).mp hl ha

/-- Witness for `duplicate_logical_id_fatal`: logical id 3 already
claimed by table "T1" in stage 0; a claim by "T2" fails with the
diagnostic, while inserting id 0 for "T2" succeeds and keeps the index
injective. -/
theorem duplicate_logical_id_fatal_witness :
    StageResources.addLogicalId ⟨[(3, "T1")], [], [], [], [], [], []⟩ 0 3 "T2"
      = .error (dupLogicalIdMsg 0 3 "T1" "T2")
    ∧ InjectiveIds [(3, "T1"), (0, "T2")] := by
  constructor
  · exact (duplicate_logical_id_fatal ⟨[(3, "T1")], [], [], [], [], [], []⟩ 0 3 "T2").1
      "T1" (by simp [lookupA]) (by decide)
  · exact (duplicate_logical_id_fatal ⟨[(3, "T1")], [], [], [], [], [], []⟩ 0 0 "T2").2
      ⟨[(3, "T1"), (0, "T2")], [], [], [], [], [], []⟩ (by decide) rfl

/-- **C6.** Hash-distribution usage is two unpaired sets: recording a use
unions the consumer label into `usedBy` and the purpose label into
`usedFor`; duplicate labels collapse by set union; and no pairing is
stored — exchanging which purpose came with which consumer yields the
identical record. -/
theorem hashdist_unpaired (r : HashDistResource) (c p c1 p1 c2 p2 : String)
    (_hby : IsStdSet strLtB r.usedBy) (hfor : IsStdSet strLtB r.usedFor) :
    (c ∈ (r.append c p).usedBy ∧ p ∈ (r.append c p).usedFor)
    ∧ (r.append c p).append c p = r.append c p
    ∧ (r.append c1 p1).append c2 p2 = (r.append c1 p2).append c2 p1 := by
  refine ⟨⟨self_mem_setInsert strLtB_spec c _, self_mem_setInsert strLtB_spec p _⟩, ?_, ?_⟩
  · have h1 : setInsert strLtB c (setInsert strLtB c r.usedBy)
        = setInsert strLtB c r.usedBy := setInsert_idem c (strLtB_spec.irr c) _
    have h2 : setInsert strLtB p (setInsert strLtB p r.usedFor)
        = setInsert strLtB p r.usedFor := setInsert_idem p (strLtB_spec.irr p) _
    simp [HashDistResource.append, h1, h2]
  · have h2 : setInsert strLtB p2 (setInsert strLtB p1 r.usedFor)
        = setInsert strLtB p1 (setInsert strLtB p2 r.usedFor) :=
      setInsert_comm strLtB_spec p2 p1 hfor
    simp [HashDistResource.append, h2]

/-- Witness for `hashdist_unpaired` at the empty record with concrete
labels. -/
theorem hashdist_unpaired_witness :
    ("T1" ∈ (HashDistResource.append ⟨[], []⟩ "T1" "selection").usedBy
      ∧ "selection" ∈ (HashDistResource.append ⟨[], []⟩ "T1" "selection").usedFor)
    ∧ ((HashDistResource.append ⟨[], []⟩ "T1" "selection").append "T1" "selection"
        = HashDistResource.append ⟨[], []⟩ "T1" "selection")
    ∧ ((HashDistResource.append (HashDistResource.append ⟨[], []⟩ "T1" "imm-addr")
          "T2" "meter-addr")
        = HashDistResource.append (HashDistResource.append ⟨[], []⟩ "T1" "meter-addr")
          "T2" "imm-addr") :=
  let h := hashdist_unpaired ⟨[], []⟩ "T1" "selection" "T1" "imm-addr" "T2" "meter-addr"
    (by simp [IsStdSet]) (by simp [IsStdSet])
  ⟨h.1, h.2.1, h.2.2⟩

/-- Witness for `hashbit_role_accumulation`: the generic part applied at
the empty record. -/
theorem hashbit_role_accumulation_witness :
    IsStdSet Usage.ltB ((HashBitResource.append ⟨"", "", []⟩ "T1" "way" .WaySelect 0
      "k1").usages)
    ∧ (⟨0, "k1", .WaySelect⟩ : Usage) ∈ (HashBitResource.append ⟨"", "", []⟩ "T1" "way"
      .WaySelect 0 "k1").usages :=
  (hashbit_role_accumulation "T1" "way" "T2" "sel").2 ⟨"", "", []⟩ "T1" "way"
    .WaySelect 0 "k1" (by simp [IsStdSet])

/-! ## Collector traversal (modelled from spec §4.1) -/

/-- Modelled from the spec: the table allocation results read by the
collector (`TableResourceAlloc` and the placement data of
`IR::MAU::Table`) are not in src.  Only what the per-stage processing of
spec §4.1 reads is modelled: the physical stage indices the final
placement occupies, the table's logical id, and an opaque memory/ALU
allocation handle. -/
structure TableAlloc where
  stages : List Int
  logicalId : Int
  memuse : Nat

/-- Modelled from the spec: the `IR::MAU::Table` node as the collector
sees it — an opaque node identity, a name, the attached gateway's name
(empty if none), and the allocation result if the allocator attached
one. -/
structure MauTable where
  id : Nat
  name : String
  gatewayName : String
  resources : Option TableAlloc

/-- The `stageResources` vector of `ResourcesLogging` (resources.h),
modelled as a map from stage index to the stage aggregate. -/
abbrev StageMap := List (Int × StageResources)

/-- The fatal diagnostic for a table with no attached allocation result,
identifying the table. -/
def missingAllocMsg (name : String) : String := "No resources for table " ++ name

/-- The `MemoriesResource` built for one occupied stage of a table (spec
§4.1 step 8): tagged with the table name and the gateway name, carrying
the opaque allocation handle. -/
def memEntry (t : MauTable) (alloc : TableAlloc) : MemoriesResource :=
  ⟨t.id, t.name, t.gatewayName, alloc.memuse⟩

/-- Modelled from the spec: the per-stage body of
`ResourcesLogging::collectTableUsage` (resources.cpp) is not in src.  Per
spec §4.1, in each occupied stage the (logicalId → tableName) pair is
inserted into the stage's index (failing fatally on a duplicate claim)
and one `MemoriesResource` is appended to the stage's table-memory list
(appended per occurrence, never deduplicated). -/
def collectStage (t : MauTable) (alloc : TableAlloc) (rep : StageMap) (s : Int) :
    Except String StageMap :=
  match ((lookupA rep s).getD emptyStage).addLogicalId s alloc.logicalId t.name with
  | .error e => .error e
  | .ok sr2 => .ok (updateAssoc rep s emptyStage (fun _ =>
      { sr2 with memories := sr2.memories ++ [memEntry t alloc] }))

/-- The table is processed once per occupied stage (spec §4.1 step 1). -/
def collectStages (t : MauTable) (alloc : TableAlloc) :
    List Int → StageMap → Except String StageMap
  | [], rep => .ok rep
  | s :: rest, rep =>
    match collectStage t alloc rep s with
    | .error e => .error e
    | .ok rep1 => collectStages t alloc rest rep1

/-- Modelled from the spec: `ResourcesLogging::preorder(const
IR::MAU::Table *)` and `collectTableUsage` (resources.cpp) are not in
src.  Per spec §4.1's failure policy, a table with no attached allocation
result aborts with a diagnostic identifying the table; otherwise the
table is processed once per occupied stage. -/
def collectTable (t : MauTable) (rep : StageMap) : Except String StageMap :=
  match t.resources with
  | none => .error (missingAllocMsg t.name)
  | some alloc => collectStages t alloc alloc.stages rep

theorem addLogicalId_ok_memories {sr sr2 : StageResources} {stage lid : Int}
    {name : String} (h : sr.addLogicalId stage lid name = .ok sr2) :
    sr2.memories = sr.memories := by
  unfold StageResources.addLogicalId at h
  split at h
  · split at h
    · injection h with h2
      rw [← h2]
    · cases h
  · injection h with h2
    rw [← h2]

theorem addLogicalId_ok_inj {sr sr2 : StageResources} {stage lid : Int}
    {name : String} (hinj : InjectiveIds sr.logicalIds)
    (h : sr.addLogicalId stage lid name = .ok sr2) :
    InjectiveIds sr2.logicalIds := by
  unfold StageResources.addLogicalId at h
  split at h
  · split at h
    · injection h with h2
      rw [← h2]; exact hinj
    · cases h
  · next hl =>
    injection h with h2
    rw [← h2]
    show ((sr.logicalIds ++ [(lid, name)]).map Prod.fst).Nodup
    rw [List.map_append, List.nodup_append]
    refine ⟨hinj, by simp, ?_⟩
    intro a ha hb
    simp only [List.map_cons, List.map_nil, List.mem_singleton] at hb
    rw [hb] at ha
    exact (lookupA_eq_none_iff sr.logicalIds lid).mp hl ha

theorem collectStage_ok_parts {t : MauTable} {alloc : TableAlloc} {rep rep2 : StageMap}
    {s : Int} (h : collectStage t alloc rep s = .ok rep2) :
    ∃ sr2, ((lookupA rep s).getD emptyStage).addLogicalId s alloc.logicalId t.name
        = .ok sr2
      ∧ rep2 = updateAssoc rep s emptyStage (fun _ =>
          { sr2 with memories := sr2.memories ++ [memEntry t alloc] }) := by
  unfold collectStage at h
  cases hadd : ((lookupA rep s).getD emptyStage).addLogicalId s alloc.logicalId t.name with
  | error e => rw [hadd] at h; cases h
  | ok sr2 =>
    rw [hadd] at h
    simp only [Except.ok.injEq] at h
    exact ⟨sr2, rfl, h.symm⟩

theorem collectStage_ok_lookup_self {t : MauTable} {alloc : TableAlloc}
    {rep rep2 : StageMap} {s : Int} (h : collectStage t alloc rep s = .ok rep2) :
    ∃ sr2, lookupA rep2 s = some sr2
      ∧ sr2.memories = ((lookupA rep s).getD emptyStage).memories ++ [memEntry t alloc]
      ∧ (InjectiveIds (((lookupA rep s).getD emptyStage).logicalIds) →
          InjectiveIds sr2.logicalIds) := by
  obtain ⟨sr2, hadd, hrep⟩ := collectStage_ok_parts h
  refine ⟨{ sr2 with memories := sr2.memories ++ [memEntry t alloc] }, ?_, ?_, ?_⟩
  · rw [hrep, lookupA_updateAssoc]
  · simp [addLogicalId_ok_memories hadd]
  · intro hinj
    show InjectiveIds sr2.logicalIds
    exact addLogicalId_ok_inj hinj hadd

theorem collectStage_ok_lookup_ne {t : MauTable} {alloc : TableAlloc}
    {rep rep2 : StageMap} {s s2 : Int} (h : collectStage t alloc rep s = .ok rep2)
    (hne : s2 ≠ s) : lookupA rep2 s2 = lookupA rep s2 := by
  obtain ⟨sr2, _, hrep⟩ := collectStage_ok_parts h
  rw [hrep, lookupA_updateAssoc_ne _ _ _ hne]

theorem collectStages_ok_lookup_notin {t : MauTable} {alloc : TableAlloc} :
    ∀ {stages : List Int} {rep rep2 : StageMap} {s : Int},
      collectStages t alloc stages rep = .ok rep2 → s ∉ stages →
      lookupA rep2 s = lookupA rep s := by
  intro stages
  induction stages with
  | nil =>
    intro rep rep2 s h _
    simp only [collectStages, Except.ok.injEq] at h
    rw [h]
  | cons s0 rest ih =>
    intro rep rep2 s h hnotin
    unfold collectStages at h
    cases hstep : collectStage t alloc rep s0 with
    | error e => rw [hstep] at h; cases h
    | ok rep1 =>
      rw [hstep] at h
      have hne : s ≠ s0 := fun hf => hnotin (hf ▸ List.mem_cons_self s0 rest)
      rw [ih h (fun hf => hnotin (List.mem_cons_of_mem s0 hf))]
      exact collectStage_ok_lookup_ne hstep hne

/-- Every stage aggregate in a report has an injective logical-id
index. -/
def AllInjectiveIds (rep : StageMap) : Prop :=
  ∀ s sr, lookupA rep s = some sr → InjectiveIds sr.logicalIds

theorem collectStage_ok_allinj {t : MauTable} {alloc : TableAlloc}
    {rep rep2 : StageMap} {s : Int} (h : collectStage t alloc rep s = .ok rep2)
    (hall : AllInjectiveIds rep) : AllInjectiveIds rep2 := by
  obtain ⟨sr2, hadd, hrep⟩ := collectStage_ok_parts h
  intro s2 sr hl
  by_cases hne : s2 = s
  · subst hne
    rw [hrep, lookupA_updateAssoc] at hl
    simp only [Option.some.injEq] at hl
    rw [← hl]
    show InjectiveIds sr2.logicalIds
    refine addLogicalId_ok_inj ?_ hadd
    cases hl0 : lookupA rep s2 with
    | none => exact List.nodup_nil
    | some sr0 => exact hall s2 sr0 hl0
  · rw [hrep, lookupA_updateAssoc_ne _ _ _ hne] at hl
    exact hall s2 sr hl

theorem collectStages_ok_allinj {t : MauTable} {alloc : TableAlloc} :
    ∀ {stages : List Int} {rep rep2 : StageMap},
      collectStages t alloc stages rep = .ok rep2 →
      AllInjectiveIds rep → AllInjectiveIds rep2 := by
  intro stages
  induction stages with
  | nil =>
    intro rep rep2 h hall
    simp only [collectStages, Except.ok.injEq] at h
    rw [← h]; exact hall
  | cons s0 rest ih =>
    intro rep rep2 h hall
    unfold collectStages at h
    cases hstep : collectStage t alloc rep s0 with
    | error e => rw [hstep] at h; cases h
    | ok rep1 =>
      rw [hstep] at h
      exact ih h (collectStage_ok_allinj hstep hall)

theorem collectStages_ok_covered {t : MauTable} {alloc : TableAlloc} :
    ∀ {stages : List Int} {rep rep2 : StageMap},
      collectStages t alloc stages rep = .ok rep2 → stages.Nodup →
      ∀ s ∈ stages, ∃ sr2, lookupA rep2 s = some sr2
        ∧ sr2.memories
          = ((lookupA rep s).getD emptyStage).memories ++ [memEntry t alloc] := by
  intro stages
  induction stages with
  | nil => intro rep rep2 _ _ s hs; cases hs
  | cons s0 rest ih =>
    intro rep rep2 h hnd s hs
    obtain ⟨hs0, hndrest⟩ := List.nodup_cons.mp hnd
    unfold collectStages at h
    cases hstep : collectStage t alloc rep s0 with
    | error e => rw [hstep] at h; cases h
    | ok rep1 =>
      rw [hstep] at h
      rcases List.mem_cons.mp hs with rfl | hrest
      · obtain ⟨sr2, hl, hmem, _⟩ := collectStage_ok_lookup_self hstep
        exact ⟨sr2, (collectStages_ok_lookup_notin h hs0).trans hl, hmem⟩
      · have hne : s ≠ s0 := fun hf => hs0 (hf ▸ hrest)
        obtain ⟨sr2, hl, hmem⟩ := ih h hndrest s hrest
        rw [collectStage_ok_lookup_ne hstep hne] at hmem
        exact ⟨sr2, hl, hmem⟩

/-- **C5.** Missing-allocation is fatal, never skipped: a table with no
attached allocation result makes the collector fail with the diagnostic
identifying the table; it never returns a successfully (perhaps
silently-empty) collected report. -/
theorem missing_allocation_fatal (t : MauTable) (rep : StageMap)
    (h : t.resources = none) :
    collectTable t rep = .error (missingAllocMsg t.name)
    ∧ ∀ rep2, collectTable t rep ≠ .ok rep2 := by
  refine ⟨by simp [collectTable, h], ?_⟩
  intro rep2 hok
  simp [collectTable, h] at hok

/-- Witness for `missing_allocation_fatal` at a table "T5" with no
allocation result. -/
theorem missing_allocation_fatal_witness :
    collectTable ⟨9, "T5", "", none⟩ [] = .error (missingAllocMsg "T5")
    ∧ collectTable ⟨9, "T5", "", none⟩ [] ≠ .ok [] := by
  have h := missing_allocation_fatal ⟨9, "T5", "", none⟩ [] rfl
  exact ⟨h.1, h.2 []⟩

/-- **C7.** Wide-table coverage: a table is processed once per occupied
stage — after a successful collection every occupied stage's table-memory
list has gained exactly the one appended `MemoriesResource` entry tagged
with the table's name (appended per occurrence, never deduplicated) —
and every stage's logical-id index stays injective, so no stage holds
two entries sharing a logical id. -/
theorem wide_table_coverage (t : MauTable) (alloc : TableAlloc) (rep rep2 : StageMap)
    (hres : t.resources = some alloc) (hnd : alloc.stages.Nodup)
    (hok : collectTable t rep = .ok rep2) :
    (∀ s ∈ alloc.stages, ∃ sr2, lookupA rep2 s = some sr2
      ∧ sr2.memories = ((lookupA rep s).getD emptyStage).memories ++ [memEntry t alloc])
    ∧ (AllInjectiveIds rep → AllInjectiveIds rep2) := by
  unfold collectTable at hok
  rw [hres] at hok
  exact ⟨collectStages_ok_covered hok hnd, collectStages_ok_allinj hok⟩

/-- Witness for `wide_table_coverage`: table "T3" occupying stages 0 and
1 ends up with one table-memory entry in each stage. -/
theorem wide_table_coverage_witness :
    (lookupA [((0 : Int), (⟨[(4, "T3")], [], [], [], [], [], [⟨7, "T3", "", 11⟩]⟩ :
        StageResources)), (1, ⟨[(4, "T3")], [], [], [], [], [], [⟨7, "T3", "", 11⟩]⟩)] 0).map
      StageResources.memories = some [⟨7, "T3", "", 11⟩]
    ∧ (lookupA [((0 : Int), (⟨[(4, "T3")], [], [], [], [], [], [⟨7, "T3", "", 11⟩]⟩ :
        StageResources)), (1, ⟨[(4, "T3")], [], [], [], [], [], [⟨7, "T3", "", 11⟩]⟩)] 1).map
      StageResources.memories = some [⟨7, "T3", "", 11⟩] := by
  have h := wide_table_coverage ⟨7, "T3", "", some ⟨[0, 1], 4, 11⟩⟩ ⟨[0, 1], 4, 11⟩ []
    [((0 : Int), (⟨[(4, "T3")], [], [], [], [], [], [⟨7, "T3", "", 11⟩]⟩ : StageResources)),
      (1, ⟨[(4, "T3")], [], [], [], [], [], [⟨7, "T3", "", 11⟩]⟩)]
    rfl (by decide) rfl
  obtain ⟨h0, -⟩ := h
  constructor
  · obtain ⟨sr2, hl, hm⟩ := h0 0 (by decide)
    rw [hl]
    simp [hm, lookupA, emptyStage, memEntry]
  · obtain ⟨sr2, hl, hm⟩ := h0 1 (by decide)
    rw [hl]
    simp [hm, lookupA, emptyStage, memEntry]

/-! ## Manifest path (`ResourcesLogging` constructor, resources.h) -/

/-- Model of `std::string` where byte-level structure matters: a list of
characters. -/
abbrev StdString := List Char

/-- `std::string::substr(pos)`: the suffix starting at character `pos`. -/
def substrFrom (s : StdString) (pos : Nat) : StdString := s.drop pos

/-- The `ResourcesLogging` constructor's manifest-path computation:
`manifestPath = filename.substr(outdir.size() + 1);`. -/
def manifestPathOf (filename outdir : StdString) : StdString :=
  substrFrom filename (outdir.length + 1)

/-- **C8.** When `filename` is `outdir`, one path-separator character, and
a remainder, the registered manifest path is exactly that remainder: the
artifact path relative to the output directory. -/
theorem manifest_path_relative (filename outdir rest : StdString) (sep : Char)
    (h : filename = outdir ++ [sep] ++ rest) :
    manifestPathOf filename outdir = rest := by
  subst h
  simp only [manifestPathOf, substrFrom]
  rw [List.drop_left' (by simp)]

/-- Witness for `manifest_path_relative` at
`filename = "out/pipe0.json"`, `outdir = "out"`. -/
theorem manifest_path_relative_witness :
    manifestPathOf ("out/pipe0.json".toList) ("out".toList) = "pipe0.json".toList :=
  manifest_path_relative _ _ _ '/' rfl

/-! ## Reporter serialization (modelled from spec §4.2) -/

/-- Sort an association list by key under a strict key order: the "sort
by key" each Reporter translation function performs before emitting. -/
def sortByKey {κ ν : Type} (ltk : κ → κ → Bool) (m : List (κ × ν)) : List (κ × ν) :=
  m.mergeSort (fun a b => !(ltk b.1 a.1))

/-- Sorting by key is invariant under permutation of the entries when the
keys are duplicate-free: the Reporter's output does not depend on the
internal containers' iteration order. -/
theorem sortByKey_eq {κ ν : Type} {ltk : κ → κ → Bool} (hlt : StdSetOrder ltk)
    {m1 m2 : List (κ × ν)} (hperm : m1.Perm m2) (hnd : (m1.map Prod.fst).Nodup) :
    sortByKey ltk m1 = sortByKey ltk m2 := by
  have hle_trans : ∀ a b c : κ × ν, (!(ltk b.1 a.1)) = true → (!(ltk c.1 b.1)) = true →
      (!(ltk c.1 a.1)) = true := by
    intro a b c h1 h2
    simp only [Bool.not_eq_true'] at h1 h2 ⊢
    cases hca : ltk c.1 a.1 with
    | false => rfl
    | true =>
      exfalso
      by_cases hbc : ltk b.1 c.1 = true
      · rw [hlt.tr hbc hca] at h1
        exact Bool.noConfusion h1
      · have heq : b.1 = c.1 := hlt.conn (by simpa using hbc) h2
        rw [heq, hca] at h1
        exact Bool.noConfusion h1
  have hle_total : ∀ a b : κ × ν, ((!(ltk b.1 a.1)) || (!(ltk a.1 b.1))) = true := by
    intro a b
    cases hba : ltk b.1 a.1 with
    | false => simp
    | true =>
      cases hab : ltk a.1 b.1 with
      | false => simp
      | true => exact absurd hab (fun hf => hlt.asym hba hf)
  have hperm1 : (sortByKey ltk m1).Perm m1 := List.mergeSort_perm m1 _
  have hperm2 : (sortByKey ltk m2).Perm m2 := List.mergeSort_perm m2 _
  have hs1 := List.sorted_mergeSort hle_trans hle_total m1
  have hs2 := List.sorted_mergeSort hle_trans hle_total m2
  have hndkeys : List.Pairwise (fun a b : κ × ν => a.1 ≠ b.1) m1 :=
    List.pairwise_map.mp hnd
  have hnd1 : List.Pairwise (fun a b : κ × ν => a.1 ≠ b.1) (sortByKey ltk m1) :=
    hperm1.symm.pairwise hndkeys (fun h1 h2 => (h1 h2.symm).elim)
  have hnd2 : List.Pairwise (fun a b : κ × ν => a.1 ≠ b.1) (sortByKey ltk m2) :=
    ((hperm.trans hperm2.symm).pairwise hndkeys (fun h1 h2 => (h1 h2.symm).elim))
  have strictify : ∀ {l : List (κ × ν)},
      List.Pairwise (fun a b => (!(ltk b.1 a.1)) = true) l →
      List.Pairwise (fun a b : κ × ν => a.1 ≠ b.1) l →
      List.Pairwise (fun a b : κ × ν => ltk a.1 b.1 = true) l := by
    intro l hle hne
    refine (hle.and hne).imp ?_
    rintro a b ⟨h1, h2⟩
    simp only [Bool.not_eq_true'] at h1
    cases hab : ltk a.1 b.1 with
    | true => rfl
    | false => exact absurd (hlt.conn hab h1) h2
  have hstrict1 := strictify hs1 hnd1
  have hstrict2 := strictify hs2 hnd2
  haveI : IsAntisymm (κ × ν) (fun a b => ltk a.1 b.1 = true) :=
    ⟨fun a b h1 h2 => (hlt.asym h1 h2).elim⟩
  exact List.eq_of_perm_of_sorted
    ((hperm1.trans hperm).trans hperm2.symm) hstrict1 hstrict2

/-- The underlying integer value of `gress_t`. -/
def Gress.val : Gress → Nat
  | .INGRESS => 0
  | .EGRESS => 1
  | .GHOST => 2

/-- Textual rendering of one logical-id binding. -/
def renderLogicalId (p : Int × String) : String :=
  "(" ++ toString p.1 ++ ":" ++ p.2 ++ ")"

/-- Textual rendering of one crossbar byte record. -/
def renderXbarByteRes (x : XbarByteResource) : String :=
  "(" ++ x.usedBy ++ "," ++ x.usedFor ++ "," ++ toString x.byte.group ++ ","
    ++ toString x.byte.index ++ ")"

/-- Textual rendering of one crossbar map entry. -/
def renderXbarEntry (p : Int × List XbarByteResource) : String :=
  "(" ++ toString p.1 ++ ":" ++ String.join (p.2.map renderXbarByteRes) ++ ")"

/-- Textual rendering of one hash-bit usage. -/
def renderUsage (u : Usage) : String :=
  "(" ++ toString u.type.val ++ "," ++ toString u.value ++ "," ++ u.fieldName ++ ")"

/-- Textual rendering of one hash-bit map entry. -/
def renderHashBitEntry (p : (Int × Int) × HashBitResource) : String :=
  "(" ++ toString p.1.1 ++ "," ++ toString p.1.2 ++ ":" ++ p.2.usedBy ++ ","
    ++ p.2.usedFor ++ "," ++ String.join (p.2.usages.map renderUsage) ++ ")"

/-- Textual rendering of one hash-distribution map entry. -/
def renderHashDistEntry (p : (Int × Int) × HashDistResource) : String :=
  "(" ++ toString p.1.1 ++ "," ++ toString p.1.2 ++ ":" ++ String.join p.2.usedBy
    ++ ";" ++ String.join p.2.usedFor ++ ")"

/-- Textual rendering of one action-bus map entry. -/
def renderActionBusEntry (p : Int × ActionBusByteResource) : String :=
  "(" ++ toString p.1 ++ ":" ++ String.join p.2.usedBy ++ ")"

/-- Textual rendering of one instruction-memory color record. -/
def renderIMemColor (r : IMemColorResource) : String :=
  "(" ++ toString r.color ++ "," ++ toString r.gress.val ++ ":"
    ++ String.join (r.usages.map (fun q => "(" ++ q.1 ++ ":" ++ String.join q.2 ++ ")"))
    ++ ")"

/-- Textual rendering of one instruction-memory map entry. -/
def renderIMemEntry (p : Int × List IMemColorResource) : String :=
  "(" ++ toString p.1 ++ ":" ++ String.join (p.2.map renderIMemColor) ++ ")"

/-- Textual rendering of one table-memory record. -/
def renderMemories (r : MemoriesResource) : String :=
  "(" ++ r.tableName ++ "," ++ r.gatewayName ++ "," ++ toString r.use ++ ")"

/-- Modelled from the spec: `ResourcesLogging::logStage` and the
per-category translation functions (resources.cpp) are not in src.  Per
spec §4.2, each translation function converts the internal set/map
representation into the external shape and "must impose a total order
(sort by key — byte coordinate, bit/function pair, color, table name,
etc.) rather than relying on internal iteration order".  The plain
textual renderings stand for the schema objects. -/
def logStage (sr : StageResources) : String :=
  String.join ((sortByKey linLtB sr.logicalIds).map renderLogicalId)
  ++ String.join ((sortByKey linLtB sr.xbarBytes).map renderXbarEntry)
  ++ String.join ((sortByKey (lexLt linLtB linLtB) sr.hashBits).map renderHashBitEntry)
  ++ String.join ((sortByKey (lexLt linLtB linLtB) sr.hashDist).map renderHashDistEntry)
  ++ String.join ((sortByKey linLtB sr.actionBusBytes).map renderActionBusEntry)
  ++ String.join ((sortByKey linLtB sr.imemColor).map renderIMemEntry)
  ++ String.join (sr.memories.map renderMemories)

/-- Modelled from the spec: `ResourcesLogging::end_apply`
(resources.cpp) is not in src.  The output document contains the ordered
sequence of stage reports indexed by stage number (the two pipeline-wide
sections are opaque external summaries and not modelled). -/
def serializeReport (rep : StageMap) : String :=
  String.join ((sortByKey linLtB rep).map
    (fun p => "(" ++ toString p.1 ++ ":" ++ logStage p.2 ++ ")"))

/-- Two stage aggregates hold identical contents: the same key/value
bindings in every resource map (in any iteration order) and the same
table-memory list. -/
abbrev StageContentsEq (sr1 sr2 : StageResources) : Prop :=
  sr1.logicalIds.Perm sr2.logicalIds ∧ sr1.xbarBytes.Perm sr2.xbarBytes
  ∧ sr1.hashBits.Perm sr2.hashBits ∧ sr1.hashDist.Perm sr2.hashDist
  ∧ sr1.actionBusBytes.Perm sr2.actionBusBytes ∧ sr1.imemColor.Perm sr2.imemColor
  ∧ sr1.memories = sr2.memories

/-- Each resource map of the aggregate binds every key at most once (the
`ordered_map` invariant). -/
abbrev StageKeysNodup (sr : StageResources) : Prop :=
  (sr.logicalIds.map Prod.fst).Nodup ∧ (sr.xbarBytes.map Prod.fst).Nodup
  ∧ (sr.hashBits.map Prod.fst).Nodup ∧ (sr.hashDist.map Prod.fst).Nodup
  ∧ (sr.actionBusBytes.map Prod.fst).Nodup ∧ (sr.imemColor.map Prod.fst).Nodup

/-- **C1.** Serialization is deterministic: serializing identical report
contents produces byte-identical output regardless of the internal
containers' iteration order — at stage level (identical map contents give
identical stage documents) and at report level (any reordering of the
stage entries gives the identical document). -/
theorem serialization_deterministic :
    (∀ sr1 sr2 : StageResources, StageContentsEq sr1 sr2 → StageKeysNodup sr1 →
      logStage sr1 = logStage sr2)
    ∧ (∀ rep1 rep2 : StageMap, rep1.Perm rep2 → (rep1.map Prod.fst).Nodup →
      serializeReport rep1 = serializeReport rep2) := by
  constructor
  · intro sr1 sr2 hc hn
    obtain ⟨p1, p2, p3, p4, p5, p6, pm⟩ := hc
    obtain ⟨n1, n2, n3, n4, n5, n6⟩ := hn
    simp only [logStage]
    rw [sortByKey_eq linLtB_spec p1 n1,
      sortByKey_eq linLtB_spec p2 n2,
      sortByKey_eq (lexLt_spec linLtB_spec linLtB_spec) p3 n3,
      sortByKey_eq (lexLt_spec linLtB_spec linLtB_spec) p4 n4,
      sortByKey_eq linLtB_spec p5 n5,
      sortByKey_eq linLtB_spec p6 n6,
      pm]
  · intro rep1 rep2 hp hn
    simp only [serializeReport]
    rw [sortByKey_eq linLtB_spec hp hn]

/-- Witness for `serialization_deterministic`: a stage whose logical-id
map is iterated in two different orders serializes identically, as does a
report with its two stages swapped. -/
theorem serialization_deterministic_witness :
    logStage ⟨[(3, "T1"), (0, "T2")], [], [], [], [], [], []⟩
      = logStage ⟨[(0, "T2"), (3, "T1")], [], [], [], [], [], []⟩
    ∧ serializeReport [(1, emptyStage), (0, emptyStage)]
      = serializeReport [(0, emptyStage), (1, emptyStage)] := by
  constructor
  · exact serialization_deterministic.1
      ⟨[(3, "T1"), (0, "T2")], [], [], [], [], [], []⟩
      ⟨[(0, "T2"), (3, "T1")], [], [], [], [], [], []⟩
      ⟨List.Perm.swap (0, "T2") (3, "T1") [], .refl _, .refl _, .refl _, .refl _,
        .refl _, rfl⟩
      (by decide)
  · exact serialization_deterministic.2 [(1, emptyStage), (0, emptyStage)]
      [(0, emptyStage), (1, emptyStage)]
      (List.Perm.swap (0, emptyStage) (1, emptyStage) []) (by decide)

/-! ## `MarshaledFrom` JSON round-trip (parde/marshal.cpp) -/

/-- Modelled from the spec: `JSONGenerator` / `JSONLoader`
(ir/json_generator.h, ir/json_loader.h) are not in src.  A JSON object
document is modelled as a list of key/value bindings; `emit` appends a
binding; `load` assigns the value found at a key, leaving the target
unchanged when the key is absent or holds a value of another type. -/
inductive JValue
  | vGress (g : Gress)
  | vStr (s : String)
  | vNat (n : Nat)
deriving DecidableEq

/-- A JSON object document: key/value bindings in emission order. -/
abbrev JObject := List (String × JValue)

/-- `JSONGenerator::emit(key, value)`: append one binding. -/
def jemit (doc : JObject) (key : String) (v : JValue) : JObject := doc ++ [(key, v)]

/-- `JSONLoader::load(key, target)` for a gress-typed target. -/
def loadGress (doc : JObject) (key : String) (dflt : Gress) : Gress :=
  match lookupA doc key with
  | some (.vGress g) => g
  | _ => dflt

/-- `JSONLoader::load(key, target)` for a string-typed target. -/
def loadStr (doc : JObject) (key : String) (dflt : String) : String :=
  match lookupA doc key with
  | some (.vStr s) => s
  | _ => dflt

/-- `JSONLoader::load(key, target)` for a numeric target. -/
def loadNat (doc : JObject) (key : String) (dflt : Nat) : Nat :=
  match lookupA doc key with
  | some (.vNat n) => n
  | _ => dflt

/-- `MarshaledFrom` (bf-p4c/parde/marshal.h; the declaration is not in
src): the fields the in-src `toJSON`/`fromJSON` (marshal.cpp) write and
read — gress, field_name, pre_padding.  A default-constructed value has
ingress direction, an empty field name, and zero padding. -/
structure MarshaledFrom where
  gress : Gress
  field_name : String
  pre_padding : Nat
deriving DecidableEq

/-- `MarshaledFrom::toJSON` (marshal.cpp): emit gress, field_name,
pre_padding, in that order. -/
def MarshaledFrom.toJSON (m : MarshaledFrom) (json : JObject) : JObject :=
  jemit (jemit (jemit json "gress" (.vGress m.gress)) "field_name" (.vStr m.field_name))
    "pre_padding" (.vNat m.pre_padding)

/-- `MarshaledFrom::fromJSON` (marshal.cpp): default-construct `rv`, then
load the three fields by key. -/
def MarshaledFrom.fromJSON (json : JObject) : MarshaledFrom :=
  { gress := loadGress json "gress" .INGRESS,
    field_name := loadStr json "field_name" "",
    pre_padding := loadNat json "pre_padding" 0 }

/-- **C9.** `MarshaledFrom` JSON round-trip: loading the document
produced by `toJSON` into a fresh value restores the gress, field_name,
and pre_padding fields. -/
theorem marshaledFrom_roundtrip (m : MarshaledFrom) :
    (MarshaledFrom.fromJSON (m.toJSON [])).gress = m.gress
    ∧ (MarshaledFrom.fromJSON (m.toJSON [])).field_name = m.field_name
    ∧ (MarshaledFrom.fromJSON (m.toJSON [])).pre_padding = m.pre_padding :=
  ⟨rfl, rfl, rfl⟩

end P4V
